import Mathlib

/-!
Verification of the SkintBroker market-data provider module (`providers.py`).

This file gives a shallow embedding of the caching and freshness subsystem:

* cache key derivation (`DataCacheHandler._get_key_by_timestamp`),
* the bounded in-process memory cache (`_check_memory_cache`, `_add_memory_cache`),
* the two persistent backends (`PostgresDataCacheHandler`, `CSVDataCacheHandler`)
  with their load/store operations and the per-interval freshness flag,
* the two-tier `retrieve`,
* the sliding-window rate limiter of `_api_request`.

Timestamps are modelled by the record of fields the code reads
(year, month, day, dayofyear, week).  Fallible Python operations
(`list.pop(0)` on an empty list, `list.remove` of a missing element,
`del dict[k]` of a missing key, `frame.index[0]` of an empty frame,
`raise RuntimeError`) are modelled in the `Except String` monad.
A fixed clock value `now` replaces the `_now()` helper, matching the
fixed-clock reading of the specification.
-/

/-- Timestamp model: exactly the fields of `pd.Timestamp` that the module
reads (`.year`, `.month`, `.day`, `.dayofyear`, `.week`). -/
structure TS where
  year : Nat
  month : Nat
  day : Nat
  dayofyear : Nat
  week : Nat
deriving DecidableEq, Repr

/-- One OHLCV bar: the `open, high, low, close, volume` columns of a row. -/
structure Bar where
  o : Int
  h : Int
  l : Int
  c : Int
  v : Int
deriving DecidableEq, Repr

/-- A dataframe fragment: rows indexed by timestamp, in frame order.
`frame.index[0]` is the timestamp of the first element. -/
abbrev Frame := List (TS × Bar)

/-- Decimal digit to character, as the Python `str()` rendering of nonnegative
integers digit by digit. -/
def digitChar10 : Nat → Char
  | 0 => '0'
  | 1 => '1'
  | 2 => '2'
  | 3 => '3'
  | 4 => '4'
  | 5 => '5'
  | 6 => '6'
  | 7 => '7'
  | 8 => '8'
  | 9 => '9'
  | _ => '0'

/-- Numeric value of a decimal digit character. -/
def digitVal (c : Char) : Nat := c.toNat - 48

/-- Little-endian decimal digits of `n` as characters; `fuel`-structured so
that the kernel can evaluate it on concrete inputs. -/
def decDigitsAux : Nat → Nat → List Char
  | 0, _ => []
  | _ + 1, 0 => []
  | fuel + 1, n + 1 => digitChar10 ((n + 1) % 10) :: decDigitsAux fuel ((n + 1) / 10)

/-- Decimal rendering of a natural number as a character list, exactly as
the Python `str()` / f-string interpolation renders a nonnegative int. -/
def decChars (n : Nat) : List Char := if n = 0 then ['0'] else (decDigitsAux n n).reverse

/-- Decimal rendering as a `String`. -/
def decStr (n : Nat) : String := String.mk (decChars n)

/-- Value of a little-endian digit-character list. -/
def valChars : List Char → Nat
  | [] => 0
  | c :: r => digitVal c + 10 * valChars r

/-- Left inverse of `decChars`: read a big-endian decimal character list
back into a number. -/
def recoverNat (l : List Char) : Nat := valChars l.reverse

/-- Character list of the key for the `daily` interval:
`f"{time.year}_per_day"` (providers.py line 80). -/
def dailyKeyChars (time : TS) : List Char := decChars time.year ++ "_per_day".data

/-- Character list of the key for the `intraday` interval:
`f"{time.day}_{time.month}_{time.year}_per_minute"` (providers.py line 82). -/
def intradayKeyChars (time : TS) : List Char :=
  decChars time.day ++ '_' :: (decChars time.month ++ '_' :: (decChars time.year ++ "_per_minute".data))

/-- Embedding of `DataCacheHandler._get_key_by_timestamp` (providers.py
lines 68-86).  `daily` is checked first, then `intraday`, then the
`simple_keys` table for `weekly`/`monthly`; anything else raises
`RuntimeError` (the source message lacks the f-prefix, so the braces are
literal). -/
def get_key_by_timestamp (time : TS) (interval : String) : Except String String :=
  if interval = "daily" then Except.ok (String.mk (dailyKeyChars time))
  else if interval = "intraday" then Except.ok (String.mk (intradayKeyChars time))
  else if interval = "weekly" then Except.ok ("per_week")
  else if interval = "monthly" then Except.ok ("per_month")
  else Except.error ("Interval {interval} not supported!")

/-- The key-derivation method as seen from a handler instance: the class
carries `self.ticker`, but `_get_key_by_timestamp` never reads it, so the
ticker parameter is ignored. -/
def handler_get_key (ticker : String) (time : TS) (interval : String) : Except String String :=
  get_key_by_timestamp time interval

/-- State of the in-process memory cache of a `DataCacheHandler`:
`self._memory_cache` (a dict), `self._memory_cache_history` (a list of
keys, least recently accessed first), `self.memory_cache_size`. -/
structure MemCache where
  cache : List (String × Frame)
  history : List String
  size : Nat
deriving DecidableEq, Repr

/-- Fresh handler memory state: empty dict, empty history (the
`DataCacheHandler.__init__` of providers.py lines 26-37). -/
def initMem (n : Nat) : MemCache := ⟨[], [], n⟩

/-- Dict lookup (`key in d` / `d[key]`): first binding of the key. -/
def dictLookup (d : List (String × Frame)) (k : String) : Option Frame :=
  match d with
  | [] => none
  | p :: rest => if p.1 = k then some p.2 else dictLookup rest k

/-- Dict write `d[k] = f`: overwrite the binding if present, else append. -/
def dictInsert (d : List (String × Frame)) (k : String) (f : Frame) : List (String × Frame) :=
  match d with
  | [] => [(k, f)]
  | p :: rest => if p.1 = k then (k, f) :: rest else p :: dictInsert rest k f

/-- Dict delete `del d[k]`: raises `KeyError` when the key is absent. -/
def dictRemove (d : List (String × Frame)) (k : String) : Except String (List (String × Frame)) :=
  match dictLookup d k with
  | some _ => Except.ok (d.filter (fun p => !(p.1 == k)))
  | none => Except.error ("KeyError")

/-- Keys of a dict, in insertion order. -/
def dictKeys (d : List (String × Frame)) : List String := d.map Prod.fst

/-- The Python `list.remove(x)`: drop the first occurrence, raise
`ValueError` if `x` is not in the list. -/
def listRemoveFirst : List String → String → Except String (List String)
  | [], _ => Except.error ("ValueError")
  | a :: rest, k =>
    if a = k then Except.ok rest
    else
      match listRemoveFirst rest k with
      | Except.error e => Except.error e
      | Except.ok r => Except.ok (a :: r)

/-- Embedding of `DataCacheHandler._check_memory_cache` (providers.py lines
39-50).  On a hit the key is promoted to most recently used, but only when
`len(self._memory_cache) == self.memory_cache_size`. -/
def check_memory_cache (m : MemCache) (key : String) : Except String (Option Frame × MemCache) :=
  match dictLookup m.cache key with
  | some entry =>
    if m.cache.length = m.size then
      match listRemoveFirst m.history key with
      | Except.error e => Except.error e
      | Except.ok h => Except.ok (some entry, { m with history := h ++ [key] })
    else Except.ok (some entry, m)
  | none => Except.ok (none, m)

/-- One memory-cache operation: a `store`-side put or a read-side get. -/
inductive MOp where
  | put : String → Frame → MOp
  | get : String → MOp
deriving DecidableEq, Repr

/-- One memory-cache step.  `put` is the embedding of
`DataCacheHandler._add_memory_cache` (providers.py lines 52-66): first the
duplicate check via `_check_memory_cache`; if the key is absent and the
cache is full, `self._memory_cache_history.pop(0)` (raising `IndexError`
when the history is empty) and `del self._memory_cache[old_name]`, then the
insertion.  The second component reports the evicted key, if any. -/
def memStep (m : MemCache) : MOp → Except String (MemCache × Option String)
  | MOp.get k =>
    match check_memory_cache m k with
    | Except.error e => Except.error e
    | Except.ok (_, m1) => Except.ok (m1, none)
  | MOp.put k f =>
    match check_memory_cache m k with
    | Except.error e => Except.error e
    | Except.ok (some _, m1) => Except.ok (m1, none)
    | Except.ok (none, m1) =>
      if m1.cache.length = m1.size then
        match m1.history with
        | [] => Except.error ("IndexError")
        | old :: rest =>
          match dictRemove m1.cache old with
          | Except.error e => Except.error e
          | Except.ok c =>
            Except.ok ({ m1 with cache := dictInsert c k f, history := rest ++ [k] }, some old)
      else
        Except.ok ({ m1 with cache := dictInsert m1.cache k f, history := m1.history ++ [k] }, none)

/-- Embedding of `DataCacheHandler._add_memory_cache` itself (the stored
frame only; the eviction is internal). -/
def add_memory_cache (m : MemCache) (key : String) (frame : Frame) : Except String MemCache :=
  match memStep m (MOp.put key frame) with
  | Except.error e => Except.error e
  | Except.ok (m1, _) => Except.ok m1

/-- Run a sequence of memory-cache operations, collecting the evicted key
of each step. -/
def memRun : MemCache → List MOp → Except String (MemCache × List (Option String))
  | m, [] => Except.ok (m, [])
  | m, op :: ops =>
    match memStep m op with
    | Except.error e => Except.error e
    | Except.ok (m1, ev) =>
      match memRun m1 ops with
      | Except.error e => Except.error e
      | Except.ok (m2, evs) => Except.ok (m2, ev :: evs)

/-- Modelled from the spec: the ideal least-recently-accessed order of the
claimed LRU policy, most recent last.  A get hit counts as an access
(recency updated on read); an operation naming a present key refreshes it;
a put of an absent key evicts the head when the cache is at capacity. -/
def trueLRUStep (n : Nat) (s : List String) : MOp → List String
  | MOp.get k => if k ∈ s then s.erase k ++ [k] else s
  | MOp.put k _ =>
    if k ∈ s then s.erase k ++ [k]
    else if s.length = n then s.tail ++ [k]
    else s ++ [k]

/-- Modelled from the spec: ideal least-recently-accessed order after a
sequence of operations, starting empty. -/
def trueLRU (n : Nat) (ops : List MOp) : List String :=
  List.foldl (trueLRUStep n) [] ops

/-- Structural well-formedness of a memory-cache state: the dict keys are a
permutation of the history list, the history has no duplicates, and it is
bounded by the configured size. -/
def MemWF (m : MemCache) : Prop :=
  List.Perm (dictKeys m.cache) m.history ∧ m.history.Nodup ∧ m.history.length ≤ m.size

/-- Timestamp of `frame.index[0]`; raises `IndexError` on an empty frame. -/
def headTS (frame : Frame) : Except String TS :=
  match frame with
  | [] => Except.error ("IndexError")
  | r :: _ => Except.ok r.1

/-- The `daily` staleness condition
`time.year != now.year or frame.index[0].dayofyear != now.dayofyear`
(providers.py lines 281-283 and 425-427), with the Python short-circuit
evaluation of `or`: `frame.index[0]` is touched only when the years are
equal. -/
def daily_stale_cond (time : TS) (frame : Frame) (now : TS) : Except String Bool :=
  if time.year ≠ now.year then Except.ok true
  else
    match headTS frame with
    | Except.error e => Except.error e
    | Except.ok h => Except.ok (h.dayofyear ≠ now.dayofyear)

/-- The `update` flag of `_check_persistent_cache` for a frame that exists
(providers.py lines 270-292 / 412-436): `update` starts `True`; `intraday`
lowers it unconditionally; `daily` lowers it when
`time.year != now.year or frame.index[0].dayofyear != now.dayofyear`;
`weekly` when `frame.index[0].week == now.week`; `monthly` when
`frame.index[0].month == now.month`.  `update = false` means the cached
frame is served as fresh; `update = true` means stale, refetch. -/
def updateFlagE (interval : String) (time : TS) (frame : Frame) (now : TS) : Except String Bool :=
  let u1 : Bool := if interval = "intraday" then false else true
  match (if interval = "daily" then daily_stale_cond time frame now else Except.ok false) with
  | Except.error e => Except.error e
  | Except.ok dcond =>
    let u2 : Bool := if interval = "daily" ∧ dcond then false else u1
    match (if interval = "weekly" then
             (match headTS frame with
              | Except.error e => Except.error e
              | Except.ok h => Except.ok (h.week = now.week))
           else Except.ok false) with
    | Except.error e => Except.error e
    | Except.ok wcond =>
      let u3 : Bool := if interval = "weekly" ∧ wcond then false else u2
      match (if interval = "monthly" then
               (match headTS frame with
                | Except.error e => Except.error e
                | Except.ok h => Except.ok (h.month = now.month))
             else Except.ok false) with
      | Except.error e => Except.error e
      | Except.ok mcond =>
        Except.ok (if interval = "monthly" ∧ mcond then false else u3)

/-- A Postgres table for one `(ticker, interval)` pair: rows of
`(timestamp, open, high, low, close, volume)` with `timestamp` as primary
key. -/
abbrev Table := List (TS × Bar)

/-- Embedding of the SELECT of `PostgresDataCacheHandler._check_persistent_cache`
(providers.py lines 244-264): for `intraday` and `daily` the WHERE clause
filters `EXTRACT(year) = time.year AND EXTRACT(month) = time.month`, and
additionally `EXTRACT(day) = time.day` only for `intraday`; `weekly` and
`monthly` read the whole table; any other interval raises `RuntimeError`. -/
def pg_query (tbl : Table) (time : TS) (interval : String) : Except String Frame :=
  if interval = "intraday" then
    Except.ok (tbl.filter (fun r =>
      decide (r.1.year = time.year) && decide (r.1.month = time.month) && decide (r.1.day = time.day)))
  else if interval = "daily" then
    Except.ok (tbl.filter (fun r =>
      decide (r.1.year = time.year) && decide (r.1.month = time.month)))
  else if interval = "weekly" ∨ interval = "monthly" then Except.ok tbl
  else Except.error ("Unknown interval: " ++ interval)

/-- One `INSERT ... ON CONFLICT (timestamp) DO UPDATE SET ...` statement of
the mega-query (providers.py lines 322-330): insert the row, or overwrite
the OHLCV values of the row with the same timestamp. -/
def upsertRow (tbl : Table) (ts : TS) (b : Bar) : Table :=
  if (tbl.filter (fun r => decide (r.1 = ts))).isEmpty then tbl ++ [(ts, b)]
  else tbl.map (fun r => if r.1 = ts then (ts, b) else r)

/-- Embedding of `PostgresDataCacheHandler._store_persistent_cache`
(providers.py lines 302-334): empty frames return immediately; otherwise
one upsert statement per row, in frame order. -/
def pg_store_persistent_cache (tbl : Table) (data : Frame) : Table :=
  if data.isEmpty then tbl
  else data.foldl (fun t r => upsertRow t r.1 r.2) tbl

/-- Row of a table at a timestamp (first match). -/
def lookupTS (tbl : Table) (ts : TS) : Option Bar :=
  match tbl with
  | [] => none
  | r :: rest => if r.1 = ts then some r.2 else lookupTS rest ts

/-- Last value a fragment assigns to a timestamp, if any. -/
def lastWrite (data : Frame) (ts : TS) : Option Bar := lookupTS data.reverse ts

/-- Embedding of `PostgresDataCacheHandler._check_persistent_cache`
(providers.py lines 237-300): query the table, decide the `update` flag
(an empty result keeps `update = True`), and on `update = False` add the
frame to the memory cache and return it; otherwise return `None`. -/
def pg_check_persistent_cache (tbl : Table) (mem : MemCache) (time : TS) (interval : String)
    (now : TS) : Except String (Option Frame × MemCache) :=
  match pg_query tbl time interval with
  | Except.error e => Except.error e
  | Except.ok frame =>
    match (if frame.isEmpty then Except.ok true else updateFlagE interval time frame now) with
    | Except.error e => Except.error e
    | Except.ok update =>
      if update then Except.ok (none, mem)
      else
        match get_key_by_timestamp time interval with
        | Except.error e => Except.error e
        | Except.ok key =>
          match add_memory_cache mem key frame with
          | Except.error e => Except.error e
          | Except.ok mem1 => Except.ok (some frame, mem1)

/-- Two-tier `DataCacheHandler.retrieve` (providers.py lines 88-105) for the
Postgres backend: derive the key, check the memory cache, and on a miss
fall through to the persistent cache. -/
def pg_retrieve (tbl : Table) (mem : MemCache) (time : TS) (interval : String) (now : TS) :
    Except String (Option Frame × MemCache) :=
  match get_key_by_timestamp time interval with
  | Except.error e => Except.error e
  | Except.ok key =>
    match check_memory_cache mem key with
    | Except.error e => Except.error e
    | Except.ok (some data, mem1) => Except.ok (some data, mem1)
    | Except.ok (none, mem1) => pg_check_persistent_cache tbl mem1 time interval now

/-- The filesystem cache: the set of CSV files, one frame per path. -/
abbrev CSVState := List (List String × Frame)

/-- Frame stored at a path, if the file exists. -/
def lookupPath (st : CSVState) (p : List String) : Option Frame :=
  match st with
  | [] => none
  | q :: rest => if q.1 = p then some q.2 else lookupPath rest p

/-- Write a frame at a path, creating the file when absent. -/
def writePath (st : CSVState) (p : List String) (f : Frame) : CSVState :=
  match st with
  | [] => [(p, f)]
  | q :: rest => if q.1 = p then (p, f) :: rest else q :: writePath rest p f

/-- Embedding of `CSVDataCacheHandler.__get_csv_path` (providers.py lines
388-401), as the list of path segments below the cache root:
`ticker/year/month/key.csv` for intraday, `ticker/year/key.csv` for daily,
`ticker/key.csv` for weekly and monthly. -/
def csv_path (ticker : String) (time : TS) (interval : String) : Except String (List String) :=
  match get_key_by_timestamp time interval with
  | Except.error e => Except.error e
  | Except.ok key =>
    if interval = "intraday" then
      Except.ok [ticker, decStr time.year, decStr time.month, key ++ ".csv"]
    else if interval = "daily" then
      Except.ok [ticker, decStr time.year, key ++ ".csv"]
    else if interval = "weekly" ∨ interval = "monthly" then
      Except.ok [ticker, key ++ ".csv"]
    else Except.error ("Interval {interval} not supported!")

/-- Embedding of `CSVDataCacheHandler._store_persistent_cache`
(providers.py lines 445-454): `data.to_csv(csv)` writes the file
unconditionally, replacing any previous contents wholesale. -/
def csv_store_persistent_cache (st : CSVState) (ticker : String) (time : TS) (interval : String)
    (data : Frame) : Except String CSVState :=
  match csv_path ticker time interval with
  | Except.error e => Except.error e
  | Except.ok p => Except.ok (writePath st p data)

/-- Embedding of `CSVDataCacheHandler._check_persistent_cache`
(providers.py lines 403-443): derive key and path; when the file exists,
read it and decide the `update` flag; on `update = False` add the frame to
the memory cache and return it; otherwise return `None`. -/
def csv_check_persistent_cache (st : CSVState) (mem : MemCache) (ticker : String) (time : TS)
    (interval : String) (now : TS) : Except String (Option Frame × MemCache) :=
  match get_key_by_timestamp time interval with
  | Except.error e => Except.error e
  | Except.ok key =>
    match csv_path ticker time interval with
    | Except.error e => Except.error e
    | Except.ok p =>
      match lookupPath st p with
      | none => Except.ok (none, mem)
      | some frame =>
        match updateFlagE interval time frame now with
        | Except.error e => Except.error e
        | Except.ok update =>
          if update then Except.ok (none, mem)
          else
            match add_memory_cache mem key frame with
            | Except.error e => Except.error e
            | Except.ok mem1 => Except.ok (some frame, mem1)

/-- Two-tier `DataCacheHandler.retrieve` (providers.py lines 88-105) for
the CSV backend. -/
def csv_retrieve (st : CSVState) (mem : MemCache) (ticker : String) (time : TS) (interval : String)
    (now : TS) : Except String (Option Frame × MemCache) :=
  match get_key_by_timestamp time interval with
  | Except.error e => Except.error e
  | Except.ok key =>
    match check_memory_cache mem key with
    | Except.error e => Except.error e
    | Except.ok (some data, mem1) => Except.ok (some data, mem1)
    | Except.ok (none, mem1) => csv_check_persistent_cache st mem1 ticker time interval now

/-- Rate-limiter bookkeeping of `_api_request` (providers.py lines 602-621
and 816-838).  Time is in whole seconds.  If the ledger has reached
`reqs_per_minute` entries, pop the oldest call time; `to_wait` is
`60 - (_now() - oldest_call).seconds`, where `.seconds` of a pandas
Timedelta is the whole-second component modulo one day; when
`to_wait >= 0` the caller sleeps `to_wait + 1` seconds.  The request is
then issued and its completion time appended to the ledger.  Returns the
time of the outbound call and the new ledger. -/
def rl_step (r : Nat) (calls : List Nat) (now : Nat) : Except String (Nat × List Nat) :=
  if r ≤ calls.length then
    match calls with
    | [] => Except.error ("IndexError")
    | oldest :: rest =>
      let elapsed := (now - oldest) % 86400
      if elapsed ≤ 60 then
        let t := now + (60 - elapsed) + 1
        Except.ok (t, rest ++ [t])
      else Except.ok (now, rest ++ [now])
  else Except.ok (now, calls ++ [now])

/-- A single-threaded sequence of API requests: the i-th request is issued
`ds[i]` seconds after the previous request completed (all zero models
"rapid succession").  Returns the outbound call times and the final
ledger. -/
def rl_run (r : Nat) : List Nat → List Nat → Nat → Except String (List Nat × List Nat)
  | [], calls, _ => Except.ok ([], calls)
  | d :: ds, calls, tnow =>
    match rl_step r calls (tnow + d) with
    | Except.error e => Except.error e
    | Except.ok (t, calls1) =>
      match rl_run r ds calls1 t with
      | Except.error e => Except.error e
      | Except.ok (ts, fin) => Except.ok (t :: ts, fin)

/-- Membership of a call time in the rolling 60-second window starting at
`w`. -/
def inWindow (w t : Nat) : Bool := decide (w ≤ t) && decide (t ≤ w + 60)

/-- Invariant of a rate-limiter run: the ledger is a suffix of the call
times, of length `min count r`; call times are nondecreasing and bounded
by the current time; and every rolling 60-second window holds at most `r`
calls. -/
def RLInv (r : Nat) (cs l : List Nat) (tc : Nat) : Prop :=
  l.IsSuffix cs ∧ l.length = min cs.length r ∧ List.Pairwise (· ≤ ·) cs ∧
    (∀ x ∈ cs, x ≤ tc) ∧ ∀ w, (cs.filter (inWindow w)).length ≤ r

theorem valChars_decDigitsAux : ∀ fuel n, n ≤ fuel → valChars (decDigitsAux fuel n) = n := by
  intro fuel
  induction fuel with
  | zero =>
    intro n hn
    interval_cases n
    rfl
  | succ fuel ih =>
    intro n hn
    match n with
    | 0 => rfl
    | m + 1 =>
      have hdiv : (m + 1) / 10 ≤ fuel := by
        have := Nat.div_lt_self (Nat.succ_pos m) (by norm_num : 1 < 10)
        omega
      have hrec := ih ((m + 1) / 10) hdiv
      have hdig : digitVal (digitChar10 ((m + 1) % 10)) = (m + 1) % 10 := by
        have hlt : (m + 1) % 10 < 10 := Nat.mod_lt _ (by norm_num)
        revert hlt
        generalize (m + 1) % 10 = d
        revert d
        decide
      simp only [decDigitsAux, valChars, hrec, hdig]
      omega

theorem recoverNat_decChars (n : Nat) : recoverNat (decChars n) = n := by
  by_cases h : n = 0
  · subst h; rfl
  · simp only [decChars, recoverNat, if_neg h, List.reverse_reverse]
    exact valChars_decDigitsAux n n le_rfl

theorem decChars_injective : Function.Injective decChars := by
  intro a b h
  have := congrArg recoverNat h
  simpa [recoverNat_decChars] using this

theorem decDigitsAux_ne_underscore :
    ∀ fuel n, ∀ c ∈ decDigitsAux fuel n, c ≠ '_' := by
  intro fuel
  induction fuel with
  | zero => intro n c hc; simp [decDigitsAux] at hc
  | succ fuel ih =>
    intro n c hc
    match n with
    | 0 => simp [decDigitsAux] at hc
    | m + 1 =>
      simp only [decDigitsAux, List.mem_cons] at hc
      rcases hc with hc | hc
      · subst hc
        have hlt : (m + 1) % 10 < 10 := Nat.mod_lt _ (by norm_num)
        revert hlt
        generalize (m + 1) % 10 = d
        revert d
        decide
      · exact ih _ c hc

theorem decChars_ne_underscore (n : Nat) : ∀ c ∈ decChars n, c ≠ '_' := by
  intro c hc
  by_cases h : n = 0
  · subst h
    simp only [decChars, if_pos] at hc
    simp only [List.mem_singleton] at hc
    subst hc
    decide
  · simp only [decChars, if_neg h, List.mem_reverse] at hc
    exact decDigitsAux_ne_underscore n n c hc

theorem sep_underscore :
    ∀ a1 a2 b1 b2 : List Char, (∀ c ∈ a1, c ≠ '_') → (∀ c ∈ a2, c ≠ '_') →
      a1 ++ '_' :: b1 = a2 ++ '_' :: b2 → a1 = a2 ∧ b1 = b2 := by
  intro a1
  induction a1 with
  | nil =>
    intro a2 b1 b2 _ h2 heq
    cases a2 with
    | nil => simpa using heq
    | cons x xs =>
      simp only [List.nil_append, List.cons_append, List.cons.injEq] at heq
      exact absurd heq.1.symm (h2 x (by simp))
  | cons x xs ih =>
    intro a2 b1 b2 h1 h2 heq
    cases a2 with
    | nil =>
      simp only [List.nil_append, List.cons_append, List.cons.injEq] at heq
      exact absurd heq.1 (h1 x (by simp))
    | cons y ys =>
      simp only [List.cons_append, List.cons.injEq] at heq
      obtain ⟨hxy, htail⟩ := heq
      obtain ⟨hxs, hb⟩ := ih ys b1 b2 (fun c hc => h1 c (by simp [hc]))
        (fun c hc => h2 c (by simp [hc])) htail
      exact ⟨by simp [hxy, hxs], hb⟩

theorem dictLookup_isSome_iff (d : List (String × Frame)) (k : String) :
    (dictLookup d k).isSome ↔ k ∈ dictKeys d := by
  induction d with
  | nil => simp [dictLookup, dictKeys]
  | cons p rest ih =>
    by_cases h : p.1 = k
    · simp [dictLookup, dictKeys, h]
    · simp only [dictLookup, if_neg h, dictKeys, List.map_cons, List.mem_cons]
      rw [ih]
      simp [dictKeys, Ne.symm h]

theorem dictLookup_eq_none_iff (d : List (String × Frame)) (k : String) :
    dictLookup d k = none ↔ k ∉ dictKeys d := by
  rw [← dictLookup_isSome_iff]
  cases dictLookup d k <;> simp

theorem dictLookup_insert_self (d : List (String × Frame)) (k : String) (f : Frame) :
    dictLookup (dictInsert d k f) k = some f := by
  induction d with
  | nil => simp [dictInsert, dictLookup]
  | cons p rest ih =>
    by_cases h : p.1 = k
    · simp [dictInsert, dictLookup, h]
    · simp [dictInsert, dictLookup, h, ih]

theorem dictKeys_insert_of_not_mem (d : List (String × Frame)) (k : String) (f : Frame)
    (h : k ∉ dictKeys d) : dictKeys (dictInsert d k f) = dictKeys d ++ [k] := by
  induction d with
  | nil => simp [dictInsert, dictKeys]
  | cons p rest ih =>
    have h1 : ¬ p.1 = k := by
      intro hp
      apply h
      simp only [dictKeys, List.map_cons, List.mem_cons]
      exact Or.inl hp.symm
    have h2 : k ∉ dictKeys rest := by
      intro hm
      apply h
      simp only [dictKeys, List.map_cons, List.mem_cons]
      exact Or.inr hm
    simp only [dictInsert, if_neg h1, dictKeys, List.map_cons, List.cons_append,
      List.cons.injEq, true_and]
    exact ih h2

theorem dictKeys_filter_ne (d : List (String × Frame)) (k : String) :
    dictKeys (d.filter (fun p => !(p.1 == k))) = (dictKeys d).filter (fun x => !(x == k)) := by
  induction d with
  | nil => rfl
  | cons p rest ih =>
    simp only [dictKeys, List.map_cons] at ih ⊢
    by_cases h : p.1 = k
    · rw [List.filter_cons_of_neg (by simp [h]), List.filter_cons_of_neg (by simp [h])]
      exact ih
    · rw [List.filter_cons_of_pos (by simp [h]), List.filter_cons_of_pos (by simp [h]),
        List.map_cons, ih]

theorem dictKeys_length (d : List (String × Frame)) : (dictKeys d).length = d.length := by
  simp [dictKeys]

theorem listRemoveFirst_eq_erase (l : List String) (k : String) (h : k ∈ l) :
    listRemoveFirst l k = Except.ok (l.erase k) := by
  induction l with
  | nil => simp at h
  | cons a rest ih =>
    by_cases ha : a = k
    · subst ha
      simp [listRemoveFirst, List.erase_cons_head]
    · have hk : k ∈ rest := by
        rcases List.mem_cons.mp h with h1 | h1
        · exact absurd h1.symm ha
        · exact h1
      rw [List.erase_cons_tail]
      · simp [listRemoveFirst, ha, ih hk]
      · simp [ha]

theorem check_memory_cache_miss (m : MemCache) (k : String)
    (h : dictLookup m.cache k = none) : check_memory_cache m k = Except.ok (none, m) := by
  simp [check_memory_cache, h]

/-- On a hit, `_check_memory_cache` returns the cached frame, leaves the
dict unchanged, and either promotes the key (cache full) or leaves the
history unchanged. -/
theorem check_memory_cache_hit (m : MemCache) (k : String) (f : Frame)
    (hwf : MemWF m) (h : dictLookup m.cache k = some f) :
    check_memory_cache m k =
      Except.ok (some f, { m with history :=
        if m.cache.length = m.size then m.history.erase k ++ [k] else m.history }) := by
  have hmemk : k ∈ m.history := by
    have hs : (dictLookup m.cache k).isSome := by simp [h]
    exact hwf.1.mem_iff.mp ((dictLookup_isSome_iff _ _).mp hs)
  by_cases hlen : m.cache.length = m.size
  · simp [check_memory_cache, h, hlen, listRemoveFirst_eq_erase _ _ hmemk]
  · simp [check_memory_cache, h, hlen]

/-- History update of a hit preserves well-formedness. -/
theorem memWF_promote (m : MemCache) (k : String)
    (hwf : MemWF m) (hk : k ∈ m.history) :
    MemWF { m with history := m.history.erase k ++ [k] } := by
  obtain ⟨hperm, hnd, hlen⟩ := hwf
  have hperm2 : List.Perm m.history (m.history.erase k ++ [k]) :=
    (List.perm_cons_erase hk).trans (List.perm_append_singleton _ _).symm
  refine ⟨hperm.trans hperm2, hperm2.nodup hnd, ?_⟩
  simpa [← hperm2.length_eq] using hlen

/-- Every memory-cache step from a well-formed state with positive capacity
succeeds and preserves well-formedness and the capacity. -/
theorem memStep_wf (m : MemCache) (op : MOp) (hwf : MemWF m) (hsz : 1 ≤ m.size) :
    ∃ m1 ev, memStep m op = Except.ok (m1, ev) ∧ MemWF m1 ∧ m1.size = m.size := by
  have hperm := hwf.1
  have hnd := hwf.2.1
  have hlen := hwf.2.2
  have hcl : m.cache.length = m.history.length := by
    rw [← dictKeys_length m.cache]
    exact hperm.length_eq
  cases op with
  | get k =>
    match hl : dictLookup m.cache k with
    | none =>
      refine ⟨m, none, ?_, hwf, rfl⟩
      simp [memStep, check_memory_cache_miss m k hl]
    | some f =>
      have hck := check_memory_cache_hit m k f hwf hl
      have hmemk : k ∈ m.history := by
        have hs : (dictLookup m.cache k).isSome := by simp [hl]
        exact hperm.mem_iff.mp ((dictLookup_isSome_iff _ _).mp hs)
      by_cases hfull : m.cache.length = m.size
      · refine ⟨{ m with history := m.history.erase k ++ [k] }, none, ?_,
          memWF_promote m k hwf hmemk, rfl⟩
        simp [memStep, hck, hfull]
      · refine ⟨m, none, ?_, hwf, rfl⟩
        have : ({ m with history := m.history } : MemCache) = m := rfl
        simp [memStep, hck, hfull]
  | put k f =>
    match hl : dictLookup m.cache k with
    | some g =>
      have hck := check_memory_cache_hit m k g hwf hl
      have hmemk : k ∈ m.history := by
        have hs : (dictLookup m.cache k).isSome := by simp [hl]
        exact hperm.mem_iff.mp ((dictLookup_isSome_iff _ _).mp hs)
      by_cases hfull : m.cache.length = m.size
      · refine ⟨{ m with history := m.history.erase k ++ [k] }, none, ?_,
          memWF_promote m k hwf hmemk, rfl⟩
        simp [memStep, hck, hfull]
      · refine ⟨m, none, ?_, hwf, rfl⟩
        simp [memStep, hck, hfull]
    | none =>
      have hck := check_memory_cache_miss m k hl
      have hknot : k ∉ dictKeys m.cache := (dictLookup_eq_none_iff _ _).mp hl
      have hkh : k ∉ m.history := fun hk => hknot (hperm.mem_iff.mpr hk)
      by_cases hfull : m.cache.length = m.size
      · -- eviction path
        have hpos : 0 < m.history.length := by omega
        match hh : m.history, hpos with
        | old :: rest, _ =>
          have hperm2 : List.Perm (dictKeys m.cache) (old :: rest) := hh ▸ hperm
          have hnd2 : (old :: rest).Nodup := hh ▸ hnd
          have hkh2 : k ∉ old :: rest := hh ▸ hkh
          have hlen2 : (old :: rest).length ≤ m.size := hh ▸ hlen
          have holdmem : old ∈ dictKeys m.cache := hperm2.mem_iff.mpr (by simp)
          have holdlk : (dictLookup m.cache old).isSome :=
            (dictLookup_isSome_iff _ _).mpr holdmem
          match holdl : dictLookup m.cache old with
          | none => rw [holdl] at holdlk; simp at holdlk
          | some u =>
            have hnotold : old ∉ rest := (List.nodup_cons.mp hnd2).1
            have hndrest : rest.Nodup := (List.nodup_cons.mp hnd2).2
            have hknotrest : k ∉ rest := fun hm => hkh2 (by simp [hm])
            have hfkeys : dictKeys (m.cache.filter (fun p => !(p.1 == old))) =
                (dictKeys m.cache).filter (fun x => !(x == old)) := dictKeys_filter_ne _ _
            have hpermf : List.Perm ((dictKeys m.cache).filter (fun x => !(x == old)))
                ((old :: rest).filter (fun x => !(x == old))) := hperm2.filter _
            have hfr : (old :: rest).filter (fun x => !(x == old)) = rest := by
              rw [List.filter_cons_of_neg (by simp)]
              exact List.filter_eq_self.mpr (fun a ha => by
                simp only [Bool.not_eq_eq_eq_not, Bool.not_true, beq_eq_false_iff_ne, ne_eq]
                exact fun he => hnotold (he ▸ ha))
            have hknotf : k ∉ dictKeys (m.cache.filter (fun p => !(p.1 == old))) := by
              rw [hfkeys]
              intro hm
              exact hknot (List.mem_of_mem_filter hm)
            have hkeysins : dictKeys (dictInsert (m.cache.filter (fun p => !(p.1 == old))) k f) =
                dictKeys (m.cache.filter (fun p => !(p.1 == old))) ++ [k] :=
              dictKeys_insert_of_not_mem _ _ _ hknotf
            refine ⟨⟨dictInsert (m.cache.filter (fun p => !(p.1 == old))) k f,
              rest ++ [k], m.size⟩, some old, ?_, ?_, rfl⟩
            · simp only [memStep, hck]
              rw [if_pos hfull, hh]
              simp [dictRemove, holdl]
            · refine ⟨?_, ?_, ?_⟩
              · rw [hkeysins, hfkeys]
                exact (hpermf.trans (by rw [hfr])).append_right [k]
              · have hp3 : List.Perm (rest ++ [k]) (k :: rest) := List.perm_append_singleton _ _
                exact hp3.symm.nodup (List.nodup_cons.mpr ⟨hknotrest, hndrest⟩)
              · show (rest ++ [k]).length ≤ m.size
                have h5 : rest.length + 1 ≤ m.size := by simpa using hlen2
                simp only [List.length_append, List.length_cons, List.length_nil]
                omega
      · -- append path
        have hkeysins : dictKeys (dictInsert m.cache k f) = dictKeys m.cache ++ [k] :=
          dictKeys_insert_of_not_mem _ _ _ hknot
        refine ⟨⟨dictInsert m.cache k f, m.history ++ [k], m.size⟩, none, ?_, ?_, rfl⟩
        · simp [memStep, hck, hfull]
        · refine ⟨?_, ?_, ?_⟩
          · rw [hkeysins]
            exact hperm.append_right [k]
          · have hp3 : List.Perm (m.history ++ [k]) (k :: m.history) :=
              List.perm_append_singleton _ _
            exact hp3.symm.nodup (List.nodup_cons.mpr ⟨hkh, hnd⟩)
          · show (m.history ++ [k]).length ≤ m.size
            simp only [List.length_append, List.length_cons, List.length_nil]
            omega

theorem memRun_wf (ops : List MOp) (m : MemCache) (hwf : MemWF m) (hsz : 1 ≤ m.size) :
    ∃ m1 evs, memRun m ops = Except.ok (m1, evs) ∧ MemWF m1 ∧ m1.size = m.size := by
  induction ops generalizing m with
  | nil => exact ⟨m, [], rfl, hwf, rfl⟩
  | cons op ops ih =>
    obtain ⟨m1, ev, hstep, hwf1, hsz1⟩ := memStep_wf m op hwf hsz
    obtain ⟨m2, evs, hrun, hwf2, hsz2⟩ := ih m1 hwf1 (hsz1 ▸ hsz)
    refine ⟨m2, ev :: evs, ?_, hwf2, hsz2.trans hsz1⟩
    simp [memRun, hstep, hrun]

/-- At capacity 2 every memory-cache step transforms the history exactly as
the ideal least-recently-accessed order of the specification. -/
theorem memStep_history_two (m : MemCache) (op : MOp) (m1 : MemCache) (ev : Option String)
    (hwf : MemWF m) (hsz : m.size = 2) (hstep : memStep m op = Except.ok (m1, ev)) :
    m1.history = trueLRUStep 2 m.history op := by
  have hperm := hwf.1
  have hnd := hwf.2.1
  have hlen := hwf.2.2
  have hcl : m.cache.length = m.history.length := by
    rw [← dictKeys_length m.cache]
    exact hperm.length_eq
  cases op with
  | get k =>
    match hl : dictLookup m.cache k with
    | none =>
      have hkh : k ∉ m.history :=
        fun hk => ((dictLookup_eq_none_iff _ _).mp hl) (hperm.mem_iff.mpr hk)
      simp only [memStep, check_memory_cache_miss m k hl, Except.ok.injEq, Prod.mk.injEq] at hstep
      rw [← hstep.1]
      simp [trueLRUStep, hkh]
    | some f =>
      have hck := check_memory_cache_hit m k f hwf hl
      have hmemk : k ∈ m.history := by
        have hs : (dictLookup m.cache k).isSome := by simp [hl]
        exact hperm.mem_iff.mp ((dictLookup_isSome_iff _ _).mp hs)
      simp only [memStep, hck, Except.ok.injEq, Prod.mk.injEq] at hstep
      rw [← hstep.1]
      by_cases hfull : m.cache.length = m.size
      · simp [trueLRUStep, hmemk, hfull]
      · have hpos : 0 < m.cache.length := by
          cases hc : m.cache with
          | nil => rw [hc] at hl; simp [dictLookup] at hl
          | cons q r => simp [hc]
        have hlen1 : m.history.length = 1 := by omega
        have hhk : m.history = [k] := by
          match hh : m.history with
          | [] => rw [hh] at hmemk; simp at hmemk
          | [a] =>
            rw [hh] at hmemk
            simp only [List.mem_singleton] at hmemk
            rw [hmemk]
          | a :: b :: t => rw [hh] at hlen1; simp at hlen1
        simp [trueLRUStep, hmemk, hfull, hhk]
  | put k f =>
    match hl : dictLookup m.cache k with
    | some g =>
      have hck := check_memory_cache_hit m k g hwf hl
      have hmemk : k ∈ m.history := by
        have hs : (dictLookup m.cache k).isSome := by simp [hl]
        exact hperm.mem_iff.mp ((dictLookup_isSome_iff _ _).mp hs)
      simp only [memStep, hck, Except.ok.injEq, Prod.mk.injEq] at hstep
      rw [← hstep.1]
      by_cases hfull : m.cache.length = m.size
      · simp [trueLRUStep, hmemk, hfull]
      · have hpos : 0 < m.cache.length := by
          cases hc : m.cache with
          | nil => rw [hc] at hl; simp [dictLookup] at hl
          | cons q r => simp [hc]
        have hlen1 : m.history.length = 1 := by omega
        have hhk : m.history = [k] := by
          match hh : m.history with
          | [] => rw [hh] at hmemk; simp at hmemk
          | [a] =>
            rw [hh] at hmemk
            simp only [List.mem_singleton] at hmemk
            rw [hmemk]
          | a :: b :: t => rw [hh] at hlen1; simp at hlen1
        simp [trueLRUStep, hmemk, hfull, hhk]
    | none =>
      have hck := check_memory_cache_miss m k hl
      have hkh : k ∉ m.history :=
        fun hk => ((dictLookup_eq_none_iff _ _).mp hl) (hperm.mem_iff.mpr hk)
      simp only [memStep, hck] at hstep
      by_cases hfull : m.cache.length = m.size
      · rw [if_pos hfull] at hstep
        have hpos : 0 < m.history.length := by omega
        match hh : m.history, hpos with
        | old :: rest, _ =>
          rw [hh] at hstep
          have hperm2 : List.Perm (dictKeys m.cache) (old :: rest) := hh ▸ hperm
          have holdmem : old ∈ dictKeys m.cache := hperm2.mem_iff.mpr (by simp)
          have holdlk : (dictLookup m.cache old).isSome :=
            (dictLookup_isSome_iff _ _).mpr holdmem
          match holdl : dictLookup m.cache old with
          | none => rw [holdl] at holdlk; simp at holdlk
          | some u =>
            simp only [dictRemove, holdl, Except.ok.injEq, Prod.mk.injEq] at hstep
            rw [← hstep.1]
            have hslen : m.history.length = 2 := by omega
            rw [hh] at hslen hkh
            simp only [trueLRUStep, if_neg hkh, hslen, if_pos rfl]
            rfl
      · rw [if_neg hfull] at hstep
        simp only [Except.ok.injEq, Prod.mk.injEq] at hstep
        rw [← hstep.1]
        have hslen : m.history.length ≠ 2 := by omega
        simp [trueLRUStep, hkh, hslen]

/-- At capacity 2, running any operation sequence keeps the concrete
history equal to the ideal least-recently-accessed order. -/
theorem memRun_history_two (ops : List MOp) (m : MemCache) (s : List String)
    (hwf : MemWF m) (hsz : m.size = 2) (hs : m.history = s) (m1 : MemCache)
    (evs : List (Option String)) (hrun : memRun m ops = Except.ok (m1, evs)) :
    m1.history = List.foldl (trueLRUStep 2) s ops ∧ MemWF m1 ∧ m1.size = 2 := by
  induction ops generalizing m s evs with
  | nil =>
    simp only [memRun, Except.ok.injEq, Prod.mk.injEq] at hrun
    obtain ⟨h1, _⟩ := hrun
    subst h1
    exact ⟨by simpa using hs, hwf, hsz⟩
  | cons op ops ih =>
    obtain ⟨ma, ev, hstep, hwfa, hsza⟩ := memStep_wf m op hwf (by omega)
    have hha : ma.history = trueLRUStep 2 m.history op :=
      memStep_history_two m op ma ev hwf hsz hstep
    simp only [memRun, hstep] at hrun
    cases hr2 : memRun ma ops with
    | error e => rw [hr2] at hrun; simp at hrun
    | ok p =>
      rw [hr2] at hrun
      obtain ⟨m2, evs2⟩ := p
      simp only [Except.ok.injEq, Prod.mk.injEq] at hrun
      obtain ⟨hm21, _⟩ := hrun
      subst hm21
      have hrec := ih ma (trueLRUStep 2 s op) hwfa (by omega)
        (by rw [hha, hs]) evs2 hr2
      refine ⟨?_, hrec.2.1, hrec.2.2⟩
      rw [List.foldl_cons]
      exact hrec.1

/-- A put of an absent key that succeeds leaves the key bound to the stored
frame and present in the history. -/
theorem add_memory_cache_miss_lookup (m : MemCache) (k : String) (f : Frame) (m1 : MemCache)
    (hl : dictLookup m.cache k = none) (h : add_memory_cache m k f = Except.ok m1) :
    dictLookup m1.cache k = some f ∧ k ∈ m1.history := by
  have hck := check_memory_cache_miss m k hl
  unfold add_memory_cache at h
  simp only [memStep, hck] at h
  by_cases hfull : m.cache.length = m.size
  · rw [if_pos hfull] at h
    cases hh : m.history with
    | nil =>
      rw [hh] at h
      simp at h
    | cons old rest =>
      rw [hh] at h
      cases hrm : dictRemove m.cache old with
      | error e =>
        simp only [hrm] at h
        simp at h
      | ok c =>
        simp only [hrm] at h
        simp only [Except.ok.injEq] at h
        rw [← h]
        exact ⟨dictLookup_insert_self _ _ _, by simp⟩
  · rw [if_neg hfull] at h
    simp only [Except.ok.injEq] at h
    rw [← h]
    exact ⟨dictLookup_insert_self _ _ _, by simp⟩

/-- A hit on a key present in both dict and history succeeds and returns
the cached frame. -/
theorem check_memory_cache_hit_mem (m : MemCache) (k : String) (f : Frame)
    (hl : dictLookup m.cache k = some f) (hk : k ∈ m.history) :
    ∃ m2, check_memory_cache m k = Except.ok (some f, m2) := by
  by_cases hfull : m.cache.length = m.size
  · exact ⟨{ m with history := m.history.erase k ++ [k] },
      by simp [check_memory_cache, hl, hfull, listRemoveFirst_eq_erase _ _ hk]⟩
  · exact ⟨m, by simp [check_memory_cache, hl, hfull]⟩

/-- Elimination of a successful Postgres persistent-cache hit: the query
produced the returned frame, the freshness flag was `False` (fresh), and
the frame was added to the memory cache under the derived key. -/
theorem pg_check_some_elim (tbl : Table) (mem : MemCache) (time : TS) (interval : String)
    (now : TS) (f : Frame) (mem2 : MemCache)
    (h : pg_check_persistent_cache tbl mem time interval now = Except.ok (some f, mem2)) :
    updateFlagE interval time f now = Except.ok false ∧
      ∃ key, get_key_by_timestamp time interval = Except.ok key ∧
        add_memory_cache mem key f = Except.ok mem2 ∧
        pg_query tbl time interval = Except.ok f := by
  unfold pg_check_persistent_cache at h
  cases hq : pg_query tbl time interval with
  | error e => rw [hq] at h; simp at h
  | ok frame =>
    rw [hq] at h
    by_cases he : frame.isEmpty
    · simp only [if_pos he] at h
      simp at h
    · simp only [if_neg he] at h
      cases hu : updateFlagE interval time frame now with
      | error e => rw [hu] at h; simp at h
      | ok update =>
        rw [hu] at h
        cases update with
        | true => simp at h
        | false =>
          simp only [if_neg (by simp : ¬(false : Bool) = true)] at h
          cases hk : get_key_by_timestamp time interval with
          | error e => rw [hk] at h; simp at h
          | ok key =>
            rw [hk] at h
            cases ha : add_memory_cache mem key frame with
            | error e =>
              simp only [ha] at h
              simp at h
            | ok mem1 =>
              simp only [ha] at h
              simp only [Except.ok.injEq, Prod.mk.injEq] at h
              obtain ⟨hf, hm⟩ := h
              rw [Option.some.injEq] at hf
              subst hf
              subst hm
              exact ⟨hu, key, rfl, ha, rfl⟩

/-- Elimination of a successful CSV persistent-cache hit: the file at the
derived path held the returned frame, the freshness flag was `False`, and
the frame was added to the memory cache under the derived key. -/
theorem csv_check_some_elim (st : CSVState) (mem : MemCache) (ticker : String) (time : TS)
    (interval : String) (now : TS) (f : Frame) (mem2 : MemCache)
    (h : csv_check_persistent_cache st mem ticker time interval now = Except.ok (some f, mem2)) :
    updateFlagE interval time f now = Except.ok false ∧
      ∃ key, get_key_by_timestamp time interval = Except.ok key ∧
        add_memory_cache mem key f = Except.ok mem2 ∧
        ∃ p, csv_path ticker time interval = Except.ok p ∧ lookupPath st p = some f := by
  unfold csv_check_persistent_cache at h
  cases hk : get_key_by_timestamp time interval with
  | error e => rw [hk] at h; simp at h
  | ok key =>
    rw [hk] at h
    cases hp : csv_path ticker time interval with
    | error e => rw [hp] at h; simp at h
    | ok p =>
      rw [hp] at h
      cases hlp : lookupPath st p with
      | none =>
        simp only [hlp] at h
        simp at h
      | some frame =>
        simp only [hlp] at h
        cases hu : updateFlagE interval time frame now with
        | error e =>
          simp only [hu] at h
          simp at h
        | ok update =>
          simp only [hu] at h
          cases update with
          | true => simp at h
          | false =>
            simp only [if_neg (by simp : ¬(false : Bool) = true)] at h
            cases ha : add_memory_cache mem key frame with
            | error e =>
              simp only [ha] at h
              simp at h
            | ok mem1 =>
              simp only [ha] at h
              simp only [Except.ok.injEq, Prod.mk.injEq] at h
              obtain ⟨hf, hm⟩ := h
              rw [Option.some.injEq] at hf
              subst hf
              subst hm
              exact ⟨hu, key, rfl, ha, p, rfl, hlp⟩

theorem lookupTS_append (t1 t2 : Table) (ts : TS) :
    lookupTS (t1 ++ t2) ts =
      match lookupTS t1 ts with
      | some b => some b
      | none => lookupTS t2 ts := by
  induction t1 with
  | nil => simp [lookupTS]
  | cons r rest ih =>
    by_cases hr : r.1 = ts
    · simp [lookupTS, hr]
    · simp [lookupTS, hr, ih]

theorem lookupTS_map_overwrite (tbl : Table) (ts : TS) (b : Bar)
    (hne : ¬(tbl.filter (fun r => decide (r.1 = ts))).isEmpty = true) :
    lookupTS (tbl.map (fun r => if r.1 = ts then (ts, b) else r)) ts = some b := by
  induction tbl with
  | nil => simp at hne
  | cons r rest ih =>
    by_cases hr : r.1 = ts
    · simp [lookupTS, hr]
    · rw [List.filter_cons_of_neg (by simp [hr])] at hne
      simp only [List.map_cons, if_neg hr]
      simp only [lookupTS, if_neg hr]
      exact ih hne

theorem lookupTS_upsertRow_self (tbl : Table) (ts : TS) (b : Bar) :
    lookupTS (upsertRow tbl ts b) ts = some b := by
  unfold upsertRow
  by_cases hemp : (tbl.filter (fun r => decide (r.1 = ts))).isEmpty = true
  · rw [if_pos hemp, lookupTS_append]
    have hnone : lookupTS tbl ts = none := by
      induction tbl with
      | nil => rfl
      | cons r rest ih =>
        by_cases hr : r.1 = ts
        · rw [List.filter_cons_of_pos (by simp [hr])] at hemp
          simp at hemp
        · rw [List.filter_cons_of_neg (by simp [hr])] at hemp
          simp only [lookupTS, if_neg hr]
          exact ih hemp
    rw [hnone]
    simp [lookupTS]
  · rw [if_neg hemp]
    exact lookupTS_map_overwrite tbl ts b hemp

theorem lookupTS_map_repl_ne (l : Table) (ts ts2 : TS) (b : Bar) (h : ts2 ≠ ts) :
    lookupTS (l.map (fun r => if r.1 = ts then (ts, b) else r)) ts2 = lookupTS l ts2 := by
  induction l with
  | nil => rfl
  | cons r rest ih =>
    by_cases hr : r.1 = ts
    · have hts : ¬ ts = ts2 := fun hh => h hh.symm
      have hr3 : ¬ r.1 = ts2 := by rw [hr]; exact hts
      simp only [List.map_cons, if_pos hr, lookupTS, if_neg hts, if_neg hr3]
      exact ih
    · by_cases hr2 : r.1 = ts2
      · simp only [List.map_cons, if_neg hr, lookupTS, if_pos hr2]
      · simp only [List.map_cons, if_neg hr, lookupTS, if_neg hr2]
        exact ih

theorem lookupTS_upsertRow_ne (tbl : Table) (ts ts2 : TS) (b : Bar) (h : ts2 ≠ ts) :
    lookupTS (upsertRow tbl ts b) ts2 = lookupTS tbl ts2 := by
  unfold upsertRow
  by_cases hemp : (tbl.filter (fun r => decide (r.1 = ts))).isEmpty = true
  · rw [if_pos hemp, lookupTS_append]
    have hts : ¬ ts = ts2 := fun hh => h hh.symm
    have hsingle : lookupTS [(ts, b)] ts2 = none := by simp [lookupTS, hts]
    cases hl : lookupTS tbl ts2 with
    | some c => simp
    | none => simp [hsingle]
  · rw [if_neg hemp]
    exact lookupTS_map_repl_ne tbl ts ts2 b h

theorem lookupTS_foldl_upsert (data : Frame) (tbl : Table) (ts : TS) :
    lookupTS (data.foldl (fun t r => upsertRow t r.1 r.2) tbl) ts =
      match lastWrite data ts with
      | some b => some b
      | none => lookupTS tbl ts := by
  induction data generalizing tbl with
  | nil => simp [lastWrite, lookupTS]
  | cons r rest ih =>
    rw [List.foldl_cons, ih]
    have hlast : lastWrite (r :: rest) ts =
        match lastWrite rest ts with
        | some b => some b
        | none => lookupTS [r] ts := by
      unfold lastWrite
      rw [List.reverse_cons, lookupTS_append]
    rw [hlast]
    cases hlw : lastWrite rest ts with
    | some b => simp
    | none =>
      simp only []
      by_cases hr : r.1 = ts
      · have : lookupTS [r] ts = some r.2 := by simp [lookupTS, hr]
        rw [this]
        have hself : lookupTS (upsertRow tbl r.1 r.2) ts = some r.2 := by
          rw [hr] at *
          exact lookupTS_upsertRow_self tbl ts r.2
        rw [hself]
      · have : lookupTS [r] ts = none := by simp [lookupTS, hr]
        rw [this]
        exact lookupTS_upsertRow_ne tbl r.1 ts r.2 (fun hh => hr hh.symm)

theorem lookupTS_pg_store (tbl : Table) (data : Frame) (ts : TS) :
    lookupTS (pg_store_persistent_cache tbl data) ts =
      match lastWrite data ts with
      | some b => some b
      | none => lookupTS tbl ts := by
  unfold pg_store_persistent_cache
  by_cases hemp : data.isEmpty = true
  · have : data = [] := by
      cases data with
      | nil => rfl
      | cons r rest => simp at hemp
    subst this
    simp [lastWrite, lookupTS]
  · rw [if_neg hemp]
    exact lookupTS_foldl_upsert data tbl ts

theorem RLInv_empty (r tc : Nat) : RLInv r [] [] tc := by
  refine ⟨⟨[], rfl⟩, by simp, List.Pairwise.nil, by simp, ?_⟩
  intro w
  simp

/-- Appending a gated call time to a saturated run preserves the rate-limit
invariant. -/
theorem RLInv_snoc_full (r : Nat) (cs front : List Nat) (oldest : Nat) (rest : List Nat)
    (t tc : Nat) (hfront : front ++ oldest :: rest = cs)
    (hlenl : (oldest :: rest).length = r)
    (hpw : List.Pairwise (· ≤ ·) cs) (hbd : ∀ x ∈ cs, x ≤ tc)
    (hwin : ∀ w, (cs.filter (inWindow w)).length ≤ r)
    (ht1 : oldest + 61 ≤ t) (htc : tc ≤ t) :
    RLInv r (cs ++ [t]) (rest ++ [t]) t := by
  have hcslen : cs.length = front.length + r := by
    rw [← hfront, List.length_append]
    omega
  refine ⟨?_, ?_, ?_, ?_, ?_⟩
  · exact ⟨front ++ [oldest], by rw [← hfront]; simp⟩
  · simp only [List.length_append, List.length_cons, List.length_nil] at hlenl ⊢
    rw [Nat.min_def]
    split <;> omega
  · rw [List.pairwise_append]
    refine ⟨hpw, by simp, ?_⟩
    intro x hx y hy
    rw [List.mem_singleton] at hy
    subst hy
    exact le_trans (hbd x hx) htc
  · intro x hx
    rcases List.mem_append.mp hx with hx | hx
    · exact le_trans (hbd x hx) htc
    · rw [List.mem_singleton] at hx
      omega
  · intro w
    rw [List.filter_append]
    by_cases hwt : inWindow w t = true
    · have hw2 : w ≤ t ∧ t ≤ w + 60 := by simpa [inWindow] using hwt
      have hwo : oldest < w := by omega
      have hfrontle : ∀ x ∈ front, x ≤ oldest := by
        intro x hx
        rw [← hfront, List.pairwise_append] at hpw
        exact hpw.2.2 x hx oldest (by simp)
      have hfilfront : front.filter (inWindow w) = [] := by
        rw [List.filter_eq_nil_iff]
        intro x hx
        have : x ≤ oldest := hfrontle x hx
        simp only [inWindow, Bool.and_eq_true, decide_eq_true_eq]
        omega
      have hfilcs : cs.filter (inWindow w) = (oldest :: rest).filter (inWindow w) := by
        rw [← hfront, List.filter_append, hfilfront, List.nil_append]
      have hfilold : (oldest :: rest).filter (inWindow w) = rest.filter (inWindow w) := by
        rw [List.filter_cons_of_neg]
        simp only [inWindow, Bool.and_eq_true, decide_eq_true_eq]
        omega
      rw [hfilcs, hfilold, List.filter_cons_of_pos (by simpa using hwt), List.filter_nil]
      have hfl := List.length_filter_le (inWindow w) rest
      simp only [List.length_append, List.length_cons, List.length_nil] at hlenl ⊢
      omega
    · have hf : inWindow w t = false := by
        cases hft : inWindow w t
        · rfl
        · exact absurd hft hwt
      rw [List.filter_cons_of_neg (by simp [hf]), List.filter_nil, List.append_nil]
      exact hwin w

/-- One gated request from a state satisfying the invariant succeeds,
advances time, and preserves the invariant. -/
theorem rl_step_inv (r : Nat) (cs l : List Nat) (tc d : Nat) (hr : 1 ≤ r)
    (hinv : RLInv r cs l tc) :
    ∃ t l1, rl_step r l (tc + d) = Except.ok (t, l1) ∧ tc ≤ t ∧ RLInv r (cs ++ [t]) l1 t := by
  obtain ⟨hsuf, hlen, hpw, hbd, hwin⟩ := hinv
  by_cases hfull : r ≤ l.length
  · have hminr : Nat.min cs.length r ≤ r := Nat.min_le_right _ _
    have hlr : l.length = r := by omega
    obtain ⟨front, hfront⟩ := hsuf
    cases l with
    | nil => simp at hlr; omega
    | cons oldest rest =>
      have holdtc : oldest ≤ tc := hbd oldest (by rw [← hfront]; simp)
      by_cases hel : ((tc + d) - oldest) % 86400 ≤ 60
      · have hmodle : ((tc + d) - oldest) % 86400 ≤ (tc + d) - oldest := Nat.mod_le _ _
        refine ⟨(tc + d) + (60 - ((tc + d) - oldest) % 86400) + 1,
          rest ++ [(tc + d) + (60 - ((tc + d) - oldest) % 86400) + 1], ?_, by omega, ?_⟩
        · simp only [rl_step, if_pos (show r ≤ (oldest :: rest).length from hfull), if_pos hel]
        · exact RLInv_snoc_full r cs front oldest rest _ tc hfront hlr hpw hbd hwin
            (by omega) (by omega)
      · have hmodle : ((tc + d) - oldest) % 86400 ≤ (tc + d) - oldest := Nat.mod_le _ _
        refine ⟨tc + d, rest ++ [tc + d], ?_, by omega, ?_⟩
        · simp only [rl_step, if_pos (show r ≤ (oldest :: rest).length from hfull), if_neg hel]
        · exact RLInv_snoc_full r cs front oldest rest _ tc hfront hlr hpw hbd hwin
            (by omega) (by omega)
  · have hlt : l.length < r := by omega
    have hcl : cs.length = l.length := by
      rcases Nat.le_total cs.length r with hcr | hcr
      · rw [Nat.min_eq_left hcr] at hlen
        omega
      · rw [Nat.min_eq_right hcr] at hlen
        omega
    obtain ⟨front, hfront⟩ := hsuf
    have hfl : front.length = 0 := by
      have hlc := congrArg List.length hfront
      simp only [List.length_append] at hlc
      omega
    have hfe : front = [] := List.length_eq_zero.mp hfl
    subst hfe
    simp only [List.nil_append] at hfront
    subst hfront
    refine ⟨tc + d, l ++ [tc + d], ?_, by omega, ?_⟩
    · simp only [rl_step, if_neg hfull]
    · refine ⟨⟨[], rfl⟩, ?_, ?_, ?_, ?_⟩
      · simp only [List.length_append, List.length_cons, List.length_nil]
        rw [Nat.min_def]
        split <;> omega
      · rw [List.pairwise_append]
        refine ⟨hpw, by simp, ?_⟩
        intro x hx y hy
        rw [List.mem_singleton] at hy
        subst hy
        exact le_trans (hbd x hx) (by omega)
      · intro x hx
        rcases List.mem_append.mp hx with hx | hx
        · exact le_trans (hbd x hx) (by omega)
        · rw [List.mem_singleton] at hx
          omega
      · intro w
        have h1 := List.length_filter_le (inWindow w) (l ++ [tc + d])
        simp only [List.length_append, List.length_cons, List.length_nil] at h1
        omega

/-- Running any request schedule from an invariant state succeeds and the
invariant holds of the accumulated call times. -/
theorem rl_run_inv (r : Nat) (ds : List Nat) (cs l : List Nat) (tc : Nat) (hr : 1 ≤ r)
    (hinv : RLInv r cs l tc) :
    ∃ ts fin tEnd, rl_run r ds l tc = Except.ok (ts, fin) ∧ RLInv r (cs ++ ts) fin tEnd := by
  induction ds generalizing cs l tc with
  | nil => exact ⟨[], l, tc, rfl, by simpa using hinv⟩
  | cons d ds ih =>
    obtain ⟨t, l1, hstep, htc, hinv1⟩ := rl_step_inv r cs l tc d hr hinv
    obtain ⟨ts, fin, tEnd, hrun, hinv2⟩ := ih (cs ++ [t]) l1 t hinv1
    refine ⟨t :: ts, fin, tEnd, ?_, ?_⟩
    · simp [rl_run, hstep, hrun]
    · rw [List.append_assoc] at hinv2
      simpa using hinv2

theorem dailyKey_rev_head (t : TS) : (dailyKeyChars t).reverse.head? = some 'y' := by
  unfold dailyKeyChars
  rw [List.reverse_append]
  rfl

theorem intradayKey_rev_head (t : TS) : (intradayKeyChars t).reverse.head? = some 'e' := by
  unfold intradayKeyChars
  simp only [List.reverse_append, List.reverse_cons, List.append_assoc]
  rfl

theorem revhead_ne (l1 l2 : List Char) (c1 c2 : Char) (h1 : l1.reverse.head? = some c1)
    (h2 : l2.reverse.head? = some c2) (hc : c1 ≠ c2) : l1 ≠ l2 := by
  intro h
  rw [h, h2] at h1
  simp only [Option.some.injEq] at h1
  exact hc h1.symm

theorem dailyKeyChars_inj (t1 t2 : TS) (h : dailyKeyChars t1 = dailyKeyChars t2) :
    t1.year = t2.year := by
  unfold dailyKeyChars at h
  have h2 : decChars t1.year ++ '_' :: "per_day".data =
      decChars t2.year ++ '_' :: "per_day".data := h
  exact decChars_injective (sep_underscore _ _ _ _ (decChars_ne_underscore _)
    (decChars_ne_underscore _) h2).1

theorem intradayKeyChars_inj (t1 t2 : TS) (h : intradayKeyChars t1 = intradayKeyChars t2) :
    t1.day = t2.day ∧ t1.month = t2.month ∧ t1.year = t2.year := by
  unfold intradayKeyChars at h
  obtain ⟨hd, h2⟩ := sep_underscore _ _ _ _ (decChars_ne_underscore _)
    (decChars_ne_underscore _) h
  obtain ⟨hm, h3⟩ := sep_underscore _ _ _ _ (decChars_ne_underscore _)
    (decChars_ne_underscore _) h2
  have h4 : decChars t1.year ++ '_' :: "per_minute".data =
      decChars t2.year ++ '_' :: "per_minute".data := h3
  obtain ⟨hy, _⟩ := sep_underscore _ _ _ _ (decChars_ne_underscore _)
    (decChars_ne_underscore _) h4
  exact ⟨decChars_injective hd, decChars_injective hm, decChars_injective hy⟩

/-- C1 (code_bug): the claim (and spec section 4.4) says a daily fragment is
served as fresh exactly when its leading timestamp has the same year and
day-of-year as `now` (refreshed today: fresh; dated yesterday: stale).
The code inverts the condition (`!=`/`or` instead of `==`/`and`): with
request time, clock and leading timestamp all at 2023 day-of-year 100 the
update flag is `true` (stale, refetch), and with leading timestamp of
day-of-year 99 (yesterday) it is `false` (served fresh).  The third
conjunct shows the Postgres persistent check consequently refusing
(`none`, refetch) the today-fresh fragment. -/
theorem C1_daily_freshness_inverted :
    updateFlagE ("daily") ⟨2023, 4, 10, 100, 15⟩
        [(⟨2023, 4, 10, 100, 15⟩, ⟨1, 2, 3, 4, 5⟩)] ⟨2023, 4, 10, 100, 15⟩ = Except.ok true ∧
    updateFlagE ("daily") ⟨2023, 4, 10, 100, 15⟩
        [(⟨2023, 4, 9, 99, 14⟩, ⟨1, 2, 3, 4, 5⟩)] ⟨2023, 4, 10, 100, 15⟩ = Except.ok false ∧
    pg_check_persistent_cache [(⟨2023, 4, 10, 100, 15⟩, ⟨1, 2, 3, 4, 5⟩)] (initMem 10)
        ⟨2023, 4, 10, 100, 15⟩ ("daily") ⟨2023, 4, 10, 100, 15⟩ =
      Except.ok (none, initMem 10) :=
  ⟨rfl, rfl, rfl⟩

/-- C2 (counterexample): a stale fragment can be returned as a terminal
success.  The memory cache holds the weekly fragment with leading
timestamp in ISO week 5; at a clock in week 6 the freshness flag for this
fragment is `true` (stale), yet `retrieve` returns it from the memory
tier, which performs no freshness evaluation. -/
theorem C2_memory_hit_returns_stale :
    csv_retrieve [] ⟨[("per_week", [(⟨2023, 2, 1, 32, 5⟩, ⟨1, 2, 3, 4, 5⟩)])], ["per_week"], 10⟩
        ("spy") ⟨2023, 2, 8, 39, 6⟩ ("weekly") ⟨2023, 2, 8, 39, 6⟩ =
      Except.ok (some [(⟨2023, 2, 1, 32, 5⟩, ⟨1, 2, 3, 4, 5⟩)],
        ⟨[("per_week", [(⟨2023, 2, 1, 32, 5⟩, ⟨1, 2, 3, 4, 5⟩)])], ["per_week"], 10⟩) ∧
    updateFlagE ("weekly") ⟨2023, 2, 8, 39, 6⟩ [(⟨2023, 2, 1, 32, 5⟩, ⟨1, 2, 3, 4, 5⟩)]
        ⟨2023, 2, 8, 39, 6⟩ = Except.ok true :=
  ⟨rfl, rfl⟩

/-- C2 (amended): a fragment returned from the persistent tier is always
one the freshness evaluator deems not stale at the clock value of the call, for
both backends; memory-tier hits, by contrast, bypass the evaluator
entirely, so only the persistent half of the claim holds. -/
theorem C2_persistent_tier_only_fresh :
    (∀ (tbl : Table) (mem : MemCache) (time : TS) (interval : String) (now : TS)
        (f : Frame) (mem2 : MemCache),
      pg_check_persistent_cache tbl mem time interval now = Except.ok (some f, mem2) →
      updateFlagE interval time f now = Except.ok false) ∧
    (∀ (st : CSVState) (mem : MemCache) (ticker : String) (time : TS) (interval : String)
        (now : TS) (f : Frame) (mem2 : MemCache),
      csv_check_persistent_cache st mem ticker time interval now = Except.ok (some f, mem2) →
      updateFlagE interval time f now = Except.ok false) :=
  ⟨fun tbl mem time interval now f mem2 h =>
      (pg_check_some_elim tbl mem time interval now f mem2 h).1,
    fun st mem ticker time interval now f mem2 h =>
      (csv_check_some_elim st mem ticker time interval now f mem2 h).1⟩

theorem C2_witness :
    updateFlagE ("intraday") ⟨2023, 4, 15, 105, 15⟩ [(⟨2023, 4, 15, 105, 15⟩, ⟨1, 2, 3, 4, 5⟩)]
        ⟨2023, 4, 15, 105, 15⟩ = Except.ok false :=
  C2_persistent_tier_only_fresh.2
    [(["spy", "2023", "4", "15_4_2023_per_minute.csv"],
      [(⟨2023, 4, 15, 105, 15⟩, ⟨1, 2, 3, 4, 5⟩)])]
    (initMem 10) ("spy") ⟨2023, 4, 15, 105, 15⟩ ("intraday") ⟨2023, 4, 15, 105, 15⟩
    [(⟨2023, 4, 15, 105, 15⟩, ⟨1, 2, 3, 4, 5⟩)]
    ⟨[("15_4_2023_per_minute", [(⟨2023, 4, 15, 105, 15⟩, ⟨1, 2, 3, 4, 5⟩)])],
      ["15_4_2023_per_minute"], 10⟩
    rfl

/-- C3 (counterexample): the claim fails for capacity 3.  After
insert A, insert B, access A, insert C, the history kept by the code is still
A, B, C — the get hit on A did not refresh recency because the cache was
below capacity — so the next insert evicts A, while the
least-recently-accessed key (with reads counting as accesses) is B. -/
theorem C3_recency_counterexample :
    memRun (initMem 3) [MOp.put ("A") [], MOp.put ("B") [], MOp.get ("A"), MOp.put ("C") []] =
      Except.ok (⟨[("A", []), ("B", []), ("C", [])], ["A", "B", "C"], 3⟩,
        [none, none, none, none]) ∧
    memStep ⟨[("A", []), ("B", []), ("C", [])], ["A", "B", "C"], 3⟩ (MOp.put ("D") []) =
      Except.ok (⟨[("B", []), ("C", []), ("D", [])], ["B", "C", "D"], 3⟩, some ("A")) ∧
    trueLRU 3 [MOp.put ("A") [], MOp.put ("B") [], MOp.get ("A"), MOp.put ("C") []] =
      ["B", "A", "C"] ∧
    ("A" : String) ≠ "B" :=
  ⟨rfl, rfl, rfl, by decide⟩

/-- C3 (amended): at capacity exactly 2 the claimed LRU discipline does
hold: after any operation sequence from an empty cache, a put that evicts
evicts precisely the head of the ideal least-recently-accessed order (get
hits counting as accesses).  For capacities of 3 or more it fails, because
a get hit refreshes recency only when the cache is at capacity. -/
theorem C3_lru_eviction_capacity_two (ops : List MOp) (m m1 : MemCache)
    (evs : List (Option String)) (k e : String) (f : Frame)
    (hrun : memRun (initMem 2) ops = Except.ok (m, evs))
    (hstep : memStep m (MOp.put k f) = Except.ok (m1, some e)) :
    (trueLRU 2 ops).head? = some e := by
  have hwf0 : MemWF (initMem 2) := ⟨by simp [initMem, dictKeys], by simp [initMem],
    by simp [initMem]⟩
  obtain ⟨hhist, hwf, hsz⟩ := memRun_history_two ops (initMem 2) [] hwf0 rfl rfl m evs hrun
  have hhead : m.history.head? = some e := by
    match hl : dictLookup m.cache k with
    | some g =>
      have hck := check_memory_cache_hit m k g hwf hl
      simp only [memStep, hck] at hstep
      simp at hstep
    | none =>
      have hck := check_memory_cache_miss m k hl
      simp only [memStep, hck] at hstep
      by_cases hfull : m.cache.length = m.size
      · rw [if_pos hfull] at hstep
        cases hh : m.history with
        | nil =>
          rw [hh] at hstep
          simp at hstep
        | cons old rest =>
          rw [hh] at hstep
          cases hrm : dictRemove m.cache old with
          | error er =>
            simp only [hrm] at hstep
            simp at hstep
          | ok c =>
            simp only [hrm] at hstep
            simp only [Except.ok.injEq, Prod.mk.injEq, Option.some.injEq] at hstep
            simp [hstep.2]
      · rw [if_neg hfull] at hstep
        simp at hstep
  rw [hhist] at hhead
  exact hhead

theorem C3_witness :
    (trueLRU 2 [MOp.put ("A") [], MOp.put ("B") [], MOp.get ("A")]).head? = some ("B") :=
  C3_lru_eviction_capacity_two [MOp.put ("A") [], MOp.put ("B") [], MOp.get ("A")]
    ⟨[("A", []), ("B", [])], ["B", "A"], 2⟩
    ⟨[("A", []), ("C", [])], ["A", "C"], 2⟩
    [none, none, none] ("C") ("B") [] rfl rfl

/-- C4 (counterexample): with capacity 0 the very first insertion crashes:
`_add_memory_cache` finds the cache at capacity (0 entries = capacity 0) and
executes `self._memory_cache_history.pop(0)` on the empty history,
raising `IndexError`. -/
theorem C4_capacity_zero_crash :
    memRun (initMem 0) [MOp.put ("A") []] = Except.error ("IndexError") :=
  rfl

/-- C4 (amended): for every capacity of at least 1, every put/get sequence
from an empty cache runs without error, and the number of live entries
(and the recency history) never exceeds the capacity; this holds of every
run, hence of every intermediate state reached by a prefix of the
operations.  Capacity 0 crashes on the first insertion. -/
theorem C4_capacity_bound (n : Nat) (ops : List MOp) (h : 1 ≤ n) :
    ∃ m evs, memRun (initMem n) ops = Except.ok (m, evs) ∧
      m.cache.length ≤ n ∧ m.history.length ≤ n := by
  have hwf0 : MemWF (initMem n) := ⟨by simp [initMem, dictKeys], by simp [initMem],
    by simp [initMem]⟩
  obtain ⟨m, evs, hrun, hwf, hsz⟩ := memRun_wf ops (initMem n) hwf0 h
  have hcl : m.cache.length = m.history.length := by
    rw [← dictKeys_length m.cache]
    exact hwf.1.length_eq
  have hhn : m.history.length ≤ n := by
    have h2 := hwf.2.2
    have h3 : m.size = n := hsz
    omega
  exact ⟨m, evs, hrun, by omega, hhn⟩

theorem C4_witness :
    ∃ m evs,
      memRun (initMem 1) [MOp.put ("A") [], MOp.put ("B") [], MOp.get ("A")] =
        Except.ok (m, evs) ∧ m.cache.length ≤ 1 ∧ m.history.length ≤ 1 :=
  C4_capacity_bound 1 [MOp.put ("A") [], MOp.put ("B") [], MOp.get ("A")] (by decide)

/-- C5 (counterexample): the filesystem backend does not merge. A stored
daily file for 2023 holds the March 15 bar; a store of a fragment holding
only the July 10 bar rewrites the whole file, and the previously persisted
March row is gone — contradicting the claim that every previously persisted row whose
timestamp does not occur in the fragment is still present". -/
theorem C5_csv_overwrite_drops_rows :
    csv_store_persistent_cache
        [(["spy", "2023", "2023_per_day.csv"], [(⟨2023, 3, 15, 74, 11⟩, ⟨1, 2, 3, 4, 5⟩)])]
        ("spy") ⟨2023, 7, 10, 191, 28⟩ ("daily") [(⟨2023, 7, 10, 191, 28⟩, ⟨6, 7, 8, 9, 10⟩)] =
      Except.ok
        [(["spy", "2023", "2023_per_day.csv"], [(⟨2023, 7, 10, 191, 28⟩, ⟨6, 7, 8, 9, 10⟩)])] ∧
    lookupTS [(⟨2023, 7, 10, 191, 28⟩, ⟨6, 7, 8, 9, 10⟩)] ⟨2023, 3, 15, 74, 11⟩ = none :=
  ⟨rfl, rfl⟩

/-- C5 (amended): the relational backend satisfies the claimed merge
semantics: every bar of the fragment is persisted with its (last written)
values, rows for timestamps not in the fragment are unchanged, no row is
ever deleted, and across two calls the values of the later call win for
overlapping timestamps.  The filesystem backend instead replaces the
whole file of the key. -/
theorem C5_pg_upsert_merge :
    (∀ (tbl : Table) (data : Frame) (ts : TS) (b : Bar), lastWrite data ts = some b →
      lookupTS (pg_store_persistent_cache tbl data) ts = some b) ∧
    (∀ (tbl : Table) (data : Frame) (ts : TS), lastWrite data ts = none →
      lookupTS (pg_store_persistent_cache tbl data) ts = lookupTS tbl ts) ∧
    (∀ (tbl : Table) (data : Frame) (ts : TS), (lookupTS tbl ts).isSome →
      (lookupTS (pg_store_persistent_cache tbl data) ts).isSome) ∧
    (∀ (tbl : Table) (d1 d2 : Frame) (ts : TS) (b : Bar), lastWrite d2 ts = some b →
      lookupTS (pg_store_persistent_cache (pg_store_persistent_cache tbl d1) d2) ts = some b) := by
  refine ⟨?_, ?_, ?_, ?_⟩
  · intro tbl data ts b h
    rw [lookupTS_pg_store, h]
  · intro tbl data ts h
    rw [lookupTS_pg_store, h]
  · intro tbl data ts h
    rw [lookupTS_pg_store]
    cases hlw : lastWrite data ts with
    | some b => simp
    | none => simpa using h
  · intro tbl d1 d2 ts b h
    rw [lookupTS_pg_store, h]

theorem C5_witness :
    lookupTS (pg_store_persistent_cache
        [(⟨2023, 3, 15, 74, 11⟩, ⟨1, 2, 3, 4, 5⟩), (⟨2023, 7, 10, 191, 28⟩, ⟨6, 7, 8, 9, 10⟩)]
        [(⟨2023, 7, 10, 191, 28⟩, ⟨60, 70, 80, 90, 100⟩)]) ⟨2023, 7, 10, 191, 28⟩ =
      some ⟨60, 70, 80, 90, 100⟩ ∧
    lookupTS (pg_store_persistent_cache
        [(⟨2023, 3, 15, 74, 11⟩, ⟨1, 2, 3, 4, 5⟩), (⟨2023, 7, 10, 191, 28⟩, ⟨6, 7, 8, 9, 10⟩)]
        [(⟨2023, 7, 10, 191, 28⟩, ⟨60, 70, 80, 90, 100⟩)]) ⟨2023, 3, 15, 74, 11⟩ =
      lookupTS
        [(⟨2023, 3, 15, 74, 11⟩, ⟨1, 2, 3, 4, 5⟩), (⟨2023, 7, 10, 191, 28⟩, ⟨6, 7, 8, 9, 10⟩)]
        ⟨2023, 3, 15, 74, 11⟩ :=
  ⟨C5_pg_upsert_merge.1
      [(⟨2023, 3, 15, 74, 11⟩, ⟨1, 2, 3, 4, 5⟩), (⟨2023, 7, 10, 191, 28⟩, ⟨6, 7, 8, 9, 10⟩)]
      [(⟨2023, 7, 10, 191, 28⟩, ⟨60, 70, 80, 90, 100⟩)] ⟨2023, 7, 10, 191, 28⟩
      ⟨60, 70, 80, 90, 100⟩ rfl,
    C5_pg_upsert_merge.2.1
      [(⟨2023, 3, 15, 74, 11⟩, ⟨1, 2, 3, 4, 5⟩), (⟨2023, 7, 10, 191, 28⟩, ⟨6, 7, 8, 9, 10⟩)]
      [(⟨2023, 7, 10, 191, 28⟩, ⟨60, 70, 80, 90, 100⟩)] ⟨2023, 3, 15, 74, 11⟩ rfl⟩

/-- C6 (counterexample): the filesystem backend stores an empty fragment
unconditionally: starting from an empty cache directory, the store creates
the daily CSV file with zero rows — an empty artifact from a vacuous
write. -/
theorem C6_csv_empty_write_creates_artifact :
    csv_store_persistent_cache [] ("spy") ⟨2023, 4, 10, 100, 15⟩ ("daily") [] =
      Except.ok [(["spy", "2023", "2023_per_day.csv"], [])] :=
  rfl

/-- C6 (amended): only the relational backend treats an empty fragment as
a no-op: `_store_persistent_cache` returns before building the query, so
the table is left exactly unchanged.  The filesystem backend writes the
file regardless (see the C6 counterexample). -/
theorem C6_pg_empty_noop : ∀ tbl : Table, pg_store_persistent_cache tbl [] = tbl := by
  intro tbl
  rfl

/-- C7 (code_bug): the relational daily load does not return the full
calendar year of the key.  With daily bars persisted for 2023-03-15 and
2023-07-10, the SELECT generated for `daily` at t = 2023-03-01 filters on
`EXTRACT(year) = 2023 AND EXTRACT(month) = 3` — the month filter that
belongs only to `intraday` — and returns only the March row, although the
July row lies in the same year (the period of the derived key
`2023_per_day`). -/
theorem C7_daily_query_month_filtered :
    pg_query [(⟨2023, 3, 15, 74, 11⟩, ⟨1, 2, 3, 4, 5⟩), (⟨2023, 7, 10, 191, 28⟩, ⟨6, 7, 8, 9, 10⟩)]
        ⟨2023, 3, 1, 60, 9⟩ ("daily") =
      Except.ok [(⟨2023, 3, 15, 74, 11⟩, ⟨1, 2, 3, 4, 5⟩)] ∧
    get_key_by_timestamp ⟨2023, 3, 1, 60, 9⟩ ("daily") = Except.ok ("2023_per_day") ∧
    get_key_by_timestamp ⟨2023, 7, 10, 191, 28⟩ ("daily") = Except.ok ("2023_per_day") :=
  ⟨rfl, rfl, rfl⟩

/-- C8 (confirmed): starting from an empty ledger, for any request
schedule (each entry the delay after the previous call completed) the
rate-limited run succeeds; every rolling 60-second window contains at most
`reqs_per_minute` outbound call times; and the ledger never holds more
than `reqs_per_minute` timestamps — at the end of the run and after every
prefix of it. -/
theorem C8_rate_limit_window_bound (r t0 : Nat) (ds : List Nat) (hr : 1 ≤ r) :
    ∃ ts fin, rl_run r ds [] t0 = Except.ok (ts, fin) ∧
      (∀ w, (ts.filter (inWindow w)).length ≤ r) ∧ fin.length ≤ r ∧
      (∀ ds1 ds2 ts1 fin1, ds = ds1 ++ ds2 →
        rl_run r ds1 [] t0 = Except.ok (ts1, fin1) → fin1.length ≤ r) := by
  obtain ⟨ts, fin, tEnd, hrun, hinv⟩ := rl_run_inv r ds [] [] t0 hr (RLInv_empty r t0)
  simp only [List.nil_append] at hinv
  refine ⟨ts, fin, hrun, fun w => hinv.2.2.2.2 w, ?_, ?_⟩
  · have h1 := hinv.2.1
    have h2 : Nat.min ts.length r ≤ r := Nat.min_le_right _ _
    omega
  · intro ds1 ds2 ts1 fin1 hds hrun1
    obtain ⟨ts1b, fin1b, tEnd1, hrun1b, hinv1⟩ := rl_run_inv r ds1 [] [] t0 hr (RLInv_empty r t0)
    rw [hrun1b] at hrun1
    simp only [Except.ok.injEq, Prod.mk.injEq] at hrun1
    simp only [List.nil_append] at hinv1
    have h1 := hinv1.2.1
    have h2 : Nat.min ts1b.length r ≤ r := Nat.min_le_right _ _
    have h3 : fin1 = fin1b := hrun1.2.symm
    rw [h3]
    omega

theorem C8_witness :
    (∃ ts fin, rl_run 2 [0, 0, 0] [] 0 = Except.ok (ts, fin) ∧
      (∀ w, (ts.filter (inWindow w)).length ≤ 2) ∧ fin.length ≤ 2 ∧
      (∀ ds1 ds2 ts1 fin1, [0, 0, 0] = ds1 ++ ds2 →
        rl_run 2 ds1 [] 0 = Except.ok (ts1, fin1) → fin1.length ≤ 2)) ∧
    rl_run 2 [0, 0, 0] [] 0 = Except.ok ([0, 0, 61], [0, 61]) :=
  ⟨C8_rate_limit_window_bound 2 0 [0, 0, 0] (by decide), rfl⟩

/-- C9 (counterexample): key derivation never encodes the ticker: the
method ignores `self.ticker`, so two handlers for different tickers derive
the identical key for the same timestamp and interval, contradicting
injectivity across distinct ticker components. -/
theorem C9_ticker_not_in_key :
    handler_get_key ("AAPL") ⟨2023, 4, 10, 100, 15⟩ ("daily") =
      handler_get_key ("MSFT") ⟨2023, 4, 10, 100, 15⟩ ("daily") ∧
    ("AAPL" : String) ≠ "MSFT" :=
  ⟨rfl, by decide⟩

/-- C9 (amended): key derivation is a pure total function over the four
interval kinds, every other interval string raises the unsupported-interval
error, and the keys are injective across distinct (kind, period) pairs:
same kind with different period (year for daily; day, month, year for
intraday) gives different keys, and different kinds always give different
keys.  The ticker is not part of the key (see the C9 counterexample):
ticker separation happens per handler instance and per backend namespace,
not in the derived key. -/
theorem C9_key_derivation_properties :
    (∀ t : TS, get_key_by_timestamp t ("daily") =
      Except.ok (String.mk (dailyKeyChars t))) ∧
    (∀ t : TS, get_key_by_timestamp t ("intraday") =
      Except.ok (String.mk (intradayKeyChars t))) ∧
    (∀ t : TS, get_key_by_timestamp t ("weekly") = Except.ok ("per_week")) ∧
    (∀ t : TS, get_key_by_timestamp t ("monthly") = Except.ok ("per_month")) ∧
    (∀ (t : TS) (i : String), i ≠ "daily" → i ≠ "intraday" → i ≠ "weekly" → i ≠ "monthly" →
      get_key_by_timestamp t i = Except.error ("Interval {interval} not supported!")) ∧
    (∀ t1 t2 : TS, get_key_by_timestamp t1 ("daily") = get_key_by_timestamp t2 ("daily") →
      t1.year = t2.year) ∧
    (∀ t1 t2 : TS,
      get_key_by_timestamp t1 ("intraday") = get_key_by_timestamp t2 ("intraday") →
      t1.day = t2.day ∧ t1.month = t2.month ∧ t1.year = t2.year) ∧
    (∀ (t1 t2 : TS) (i1 i2 : String),
      i1 ∈ (["intraday", "daily", "weekly", "monthly"] : List String) →
      i2 ∈ (["intraday", "daily", "weekly", "monthly"] : List String) → i1 ≠ i2 →
      get_key_by_timestamp t1 i1 ≠ get_key_by_timestamp t2 i2) := by
  refine ⟨fun t => rfl, fun t => rfl, fun t => rfl, fun t => rfl, ?_, ?_, ?_, ?_⟩
  · intro t i h1 h2 h3 h4
    simp [get_key_by_timestamp, h1, h2, h3, h4]
  · intro t1 t2 h
    have h2 : (Except.ok (String.mk (dailyKeyChars t1)) : Except String String) =
        Except.ok (String.mk (dailyKeyChars t2)) := h
    simp only [Except.ok.injEq] at h2
    exact dailyKeyChars_inj t1 t2 (congrArg String.data h2)
  · intro t1 t2 h
    have h2 : (Except.ok (String.mk (intradayKeyChars t1)) : Except String String) =
        Except.ok (String.mk (intradayKeyChars t2)) := h
    simp only [Except.ok.injEq] at h2
    exact intradayKeyChars_inj t1 t2 (congrArg String.data h2)
  · intro t1 t2 i1 i2 hi1 hi2 hne
    simp only [List.mem_cons, List.mem_singleton, List.not_mem_nil, or_false] at hi1 hi2
    rcases hi1 with rfl | rfl | rfl | rfl <;> rcases hi2 with rfl | rfl | rfl | rfl
    · exact absurd rfl hne
    · intro heq
      have h2 : (Except.ok (String.mk (intradayKeyChars t1)) : Except String String) = Except.ok (String.mk (dailyKeyChars t2)) := heq
      simp only [Except.ok.injEq] at h2
      exact revhead_ne (intradayKeyChars t1) (dailyKeyChars t2) 'e' 'y' (intradayKey_rev_head t1) (dailyKey_rev_head t2) (by decide)
        (congrArg String.data h2)
    · intro heq
      have h2 : (Except.ok (String.mk (intradayKeyChars t1)) : Except String String) = Except.ok (("per_week" : String)) := heq
      simp only [Except.ok.injEq] at h2
      exact revhead_ne (intradayKeyChars t1) ("per_week".data) 'e' 'k' (intradayKey_rev_head t1) (rfl) (by decide)
        (congrArg String.data h2)
    · intro heq
      have h2 : (Except.ok (String.mk (intradayKeyChars t1)) : Except String String) = Except.ok (("per_month" : String)) := heq
      simp only [Except.ok.injEq] at h2
      exact revhead_ne (intradayKeyChars t1) ("per_month".data) 'e' 'h' (intradayKey_rev_head t1) (rfl) (by decide)
        (congrArg String.data h2)
    · intro heq
      have h2 : (Except.ok (String.mk (dailyKeyChars t1)) : Except String String) = Except.ok (String.mk (intradayKeyChars t2)) := heq
      simp only [Except.ok.injEq] at h2
      exact revhead_ne (dailyKeyChars t1) (intradayKeyChars t2) 'y' 'e' (dailyKey_rev_head t1) (intradayKey_rev_head t2) (by decide)
        (congrArg String.data h2)
    · exact absurd rfl hne
    · intro heq
      have h2 : (Except.ok (String.mk (dailyKeyChars t1)) : Except String String) = Except.ok (("per_week" : String)) := heq
      simp only [Except.ok.injEq] at h2
      exact revhead_ne (dailyKeyChars t1) ("per_week".data) 'y' 'k' (dailyKey_rev_head t1) (rfl) (by decide)
        (congrArg String.data h2)
    · intro heq
      have h2 : (Except.ok (String.mk (dailyKeyChars t1)) : Except String String) = Except.ok (("per_month" : String)) := heq
      simp only [Except.ok.injEq] at h2
      exact revhead_ne (dailyKeyChars t1) ("per_month".data) 'y' 'h' (dailyKey_rev_head t1) (rfl) (by decide)
        (congrArg String.data h2)
    · intro heq
      have h2 : (Except.ok (("per_week" : String)) : Except String String) = Except.ok (String.mk (intradayKeyChars t2)) := heq
      simp only [Except.ok.injEq] at h2
      exact revhead_ne ("per_week".data) (intradayKeyChars t2) 'k' 'e' (rfl) (intradayKey_rev_head t2) (by decide)
        (congrArg String.data h2)
    · intro heq
      have h2 : (Except.ok (("per_week" : String)) : Except String String) = Except.ok (String.mk (dailyKeyChars t2)) := heq
      simp only [Except.ok.injEq] at h2
      exact revhead_ne ("per_week".data) (dailyKeyChars t2) 'k' 'y' (rfl) (dailyKey_rev_head t2) (by decide)
        (congrArg String.data h2)
    · exact absurd rfl hne
    · intro heq
      have h2 : (Except.ok (("per_week" : String)) : Except String String) = Except.ok (("per_month" : String)) := heq
      simp only [Except.ok.injEq] at h2
      exact revhead_ne ("per_week".data) ("per_month".data) 'k' 'h' (rfl) (rfl) (by decide)
        (congrArg String.data h2)
    · intro heq
      have h2 : (Except.ok (("per_month" : String)) : Except String String) = Except.ok (String.mk (intradayKeyChars t2)) := heq
      simp only [Except.ok.injEq] at h2
      exact revhead_ne ("per_month".data) (intradayKeyChars t2) 'h' 'e' (rfl) (intradayKey_rev_head t2) (by decide)
        (congrArg String.data h2)
    · intro heq
      have h2 : (Except.ok (("per_month" : String)) : Except String String) = Except.ok (String.mk (dailyKeyChars t2)) := heq
      simp only [Except.ok.injEq] at h2
      exact revhead_ne ("per_month".data) (dailyKeyChars t2) 'h' 'y' (rfl) (dailyKey_rev_head t2) (by decide)
        (congrArg String.data h2)
    · intro heq
      have h2 : (Except.ok (("per_month" : String)) : Except String String) = Except.ok (("per_week" : String)) := heq
      simp only [Except.ok.injEq] at h2
      exact revhead_ne ("per_month".data) ("per_week".data) 'h' 'k' (rfl) (rfl) (by decide)
        (congrArg String.data h2)
    · exact absurd rfl hne

theorem C9_witness :
    get_key_by_timestamp ⟨2023, 4, 10, 100, 15⟩ ("hourly") =
      Except.error ("Interval {interval} not supported!") ∧
    get_key_by_timestamp ⟨2023, 4, 10, 100, 15⟩ ("daily") ≠
      get_key_by_timestamp ⟨2024, 1, 1, 1, 1⟩ ("weekly") :=
  ⟨C9_key_derivation_properties.2.2.2.2.1 ⟨2023, 4, 10, 100, 15⟩ ("hourly") (by decide)
      (by decide) (by decide) (by decide),
    C9_key_derivation_properties.2.2.2.2.2.2.2 ⟨2023, 4, 10, 100, 15⟩ ⟨2024, 1, 1, 1, 1⟩
      ("daily") ("weekly") (by decide) (by decide) (by decide)⟩

/-- C10 (confirmed): for both backends, when retrieve misses the memory
tier (the derived key is unbound) and the persistent tier produces a fresh
fragment, retrieve returns exactly that fragment with the memory state
produced by the persistent check; afterwards the key is bound to the
fragment in the memory cache, and an immediately repeated retrieve at the
same clock value hits the memory tier and returns the same fragment. -/
theorem C10_persistent_hit_populates_memory :
    (∀ (tbl : Table) (mem : MemCache) (time : TS) (interval : String) (now : TS)
        (key : String) (f : Frame) (mem2 : MemCache),
      get_key_by_timestamp time interval = Except.ok key →
      dictLookup mem.cache key = none →
      pg_check_persistent_cache tbl mem time interval now = Except.ok (some f, mem2) →
      pg_retrieve tbl mem time interval now = Except.ok (some f, mem2) ∧
        dictLookup mem2.cache key = some f ∧
        ∃ mem3, pg_retrieve tbl mem2 time interval now = Except.ok (some f, mem3)) ∧
    (∀ (st : CSVState) (mem : MemCache) (ticker : String) (time : TS) (interval : String)
        (now : TS) (key : String) (f : Frame) (mem2 : MemCache),
      get_key_by_timestamp time interval = Except.ok key →
      dictLookup mem.cache key = none →
      csv_check_persistent_cache st mem ticker time interval now = Except.ok (some f, mem2) →
      csv_retrieve st mem ticker time interval now = Except.ok (some f, mem2) ∧
        dictLookup mem2.cache key = some f ∧
        ∃ mem3, csv_retrieve st mem2 ticker time interval now = Except.ok (some f, mem3)) := by
  constructor
  · intro tbl mem time interval now key f mem2 hk hmiss hchk
    obtain ⟨hflag, key2, hk2, hadd, hq⟩ := pg_check_some_elim tbl mem time interval now f mem2 hchk
    rw [hk] at hk2
    simp only [Except.ok.injEq] at hk2
    subst hk2
    obtain ⟨hlk2, hmem2⟩ := add_memory_cache_miss_lookup mem key f mem2 hmiss hadd
    obtain ⟨mem3, hchk2⟩ := check_memory_cache_hit_mem mem2 key f hlk2 hmem2
    refine ⟨?_, hlk2, mem3, ?_⟩
    · simp only [pg_retrieve, hk, check_memory_cache_miss mem key hmiss]
      exact hchk
    · simp only [pg_retrieve, hk, hchk2]
  · intro st mem ticker time interval now key f mem2 hk hmiss hchk
    obtain ⟨hflag, key2, hk2, hadd, p, hp, hlp⟩ :=
      csv_check_some_elim st mem ticker time interval now f mem2 hchk
    rw [hk] at hk2
    simp only [Except.ok.injEq] at hk2
    subst hk2
    obtain ⟨hlk2, hmem2⟩ := add_memory_cache_miss_lookup mem key f mem2 hmiss hadd
    obtain ⟨mem3, hchk2⟩ := check_memory_cache_hit_mem mem2 key f hlk2 hmem2
    refine ⟨?_, hlk2, mem3, ?_⟩
    · simp only [csv_retrieve, hk, check_memory_cache_miss mem key hmiss]
      exact hchk
    · simp only [csv_retrieve, hk, hchk2]

theorem C10_witness :
    pg_retrieve [(⟨2023, 4, 15, 105, 15⟩, ⟨1, 2, 3, 4, 5⟩)] (initMem 10) ⟨2023, 4, 15, 105, 15⟩
        ("intraday") ⟨2023, 4, 15, 105, 15⟩ =
      Except.ok (some [(⟨2023, 4, 15, 105, 15⟩, ⟨1, 2, 3, 4, 5⟩)],
        ⟨[("15_4_2023_per_minute", [(⟨2023, 4, 15, 105, 15⟩, ⟨1, 2, 3, 4, 5⟩)])],
          ["15_4_2023_per_minute"], 10⟩) ∧
    dictLookup (⟨[("15_4_2023_per_minute", [(⟨2023, 4, 15, 105, 15⟩, ⟨1, 2, 3, 4, 5⟩)])],
          ["15_4_2023_per_minute"], 10⟩ : MemCache).cache ("15_4_2023_per_minute") =
      some [(⟨2023, 4, 15, 105, 15⟩, ⟨1, 2, 3, 4, 5⟩)] ∧
    ∃ mem3, pg_retrieve [(⟨2023, 4, 15, 105, 15⟩, ⟨1, 2, 3, 4, 5⟩)]
        ⟨[("15_4_2023_per_minute", [(⟨2023, 4, 15, 105, 15⟩, ⟨1, 2, 3, 4, 5⟩)])],
          ["15_4_2023_per_minute"], 10⟩ ⟨2023, 4, 15, 105, 15⟩ ("intraday")
        ⟨2023, 4, 15, 105, 15⟩ =
      Except.ok (some [(⟨2023, 4, 15, 105, 15⟩, ⟨1, 2, 3, 4, 5⟩)], mem3) :=
  C10_persistent_hit_populates_memory.1 [(⟨2023, 4, 15, 105, 15⟩, ⟨1, 2, 3, 4, 5⟩)]
    (initMem 10) ⟨2023, 4, 15, 105, 15⟩ ("intraday") ⟨2023, 4, 15, 105, 15⟩
    ("15_4_2023_per_minute") [(⟨2023, 4, 15, 105, 15⟩, ⟨1, 2, 3, 4, 5⟩)]
    ⟨[("15_4_2023_per_minute", [(⟨2023, 4, 15, 105, 15⟩, ⟨1, 2, 3, 4, 5⟩)])],
      ["15_4_2023_per_minute"], 10⟩ rfl rfl rfl
